import Mathlib

/-!
Verification of the hours-dashboard core (app.py): the reconciler that diffs
the loaded table against the edited grid, the aggregator metrics, the weekly
bucketing, and the storage update/delete operations.

Dates are modelled as day indices (`Nat`) with day 0 a Monday; money-free
real arithmetic (Python floats) is modelled over `ℚ`; a pandas cell that can
hold a missing value is modelled by `PdCell`.
-/

namespace HoursDashboard

/-- A pandas cell of the `id` column: missing (`NaN`), an integer, or a
string (after `astype(str)`). -/
inductive PdCell where
  | na : PdCell
  | intV : Nat → PdCell
  | strV : String → PdCell
deriving DecidableEq

/-- Decimal digits of a natural number, least significant first, with an
explicit fuel argument so the definition is structurally recursive. -/
def decDigitsGo : Nat → Nat → List Nat
  | 0, _ => []
  | _ + 1, 0 => []
  | fuel + 1, n + 1 => ((n + 1) % 10) :: decDigitsGo fuel ((n + 1) / 10)

/-- Decimal digits of a natural number, least significant first. -/
def decDigits (n : Nat) : List Nat := decDigitsGo n n

/-- Value of a little-endian decimal digit list. -/
def valDigits : List Nat → Nat
  | [] => 0
  | d :: ds => d + 10 * valDigits ds

/-- The character printed for one decimal digit. -/
def digitChar : Nat → Char
  | 0 => '0'
  | 1 => '1'
  | 2 => '2'
  | 3 => '3'
  | 4 => '4'
  | 5 => '5'
  | 6 => '6'
  | 7 => '7'
  | 8 => '8'
  | 9 => '9'
  | _ => '*'

/-- Python's `str` on a non-negative integer: its decimal rendering. -/
def pyStrNat (n : Nat) : String :=
  if n = 0 then "0" else String.mk ((decDigits n).map digitChar).reverse

/-- Python's `str` on a pandas cell: `NaN` renders as the string `"nan"`. -/
def pdStr : PdCell → String
  | .na => "nan"
  | .intV n => pyStrNat n
  | .strV s => s

/-- pandas `astype(str)` on one cell: every cell becomes a string cell. -/
def astypeStr (c : PdCell) : PdCell := .strV (pdStr c)

/-- pandas `isna` on one cell: true only for a missing value. -/
def isna : PdCell → Bool
  | .na => true
  | _ => false

/-- A row of the entries dataframe as seen by the edit grid: `id` is a pandas
cell (missing for rows the user newly typed in), the other columns mirror the
`entries` table. Hours (a Python float) are modelled over `ℚ`. -/
structure Row where
  id : PdCell
  entry_date : String
  description : String
  hours : ℚ
deriving DecidableEq

/-- One row of `df["id"] = df["id"].astype(str)`: only the id cell changes. -/
def strRow (r : Row) : Row := { r with id := astypeStr r.id }

/-- The column assignment `df["id"] = df["id"].astype(str)` (app.py:150-151). -/
def astypeIdStr (t : List Row) : List Row := t.map strRow

/-- Python's `set(frame["id"])`: the set of id cells of a table. -/
def idSet (t : List Row) : Finset PdCell := (t.map Row.id).toFinset

/-- The reconciler's deletions, `set(df["id"]) - set(editable_df["id"])`
after both id columns were cast to `str` (app.py:150-153). -/
def deleted_ids (df ed : List Row) : Finset PdCell :=
  idSet (astypeIdStr df) \ idSet (astypeIdStr ed)

/-- The reconciler's insertions, `editable_df[editable_df["id"].isna()]`,
evaluated after the id column was cast to `str` (app.py:151,154). -/
def added_rows (ed : List Row) : List Row :=
  (astypeIdStr ed).filter (fun r => isna r.id)

/-- The row filter of app.py:157-161: true when `entry_date`, `description`
or `hours` differs between the candidate (new) and baseline (old) row. -/
def rowDiffers (rn ro : Row) : Bool :=
  decide (rn.entry_date ≠ ro.entry_date) || decide (rn.description ≠ ro.description)
    || decide (rn.hours ≠ ro.hours)

/-- pandas `editable_df.merge(df, on="id")`: the inner join of the candidate
table to the baseline table on the (string-cast) id column, one pair
`(candidate row, baseline row)` per key match, left order first (app.py:156). -/
def merged (ed df : List Row) : List (Row × Row) :=
  (astypeIdStr ed).flatMap
    (fun rn => ((astypeIdStr df).filter (fun ro => decide (ro.id = rn.id))).map
      (fun ro => (rn, ro)))

/-- The reconciler's updates: the merged pairs in which `entry_date`,
`description` or `hours` differs (app.py:156-161). -/
def updated_rows (ed df : List Row) : List (Row × Row) :=
  (merged ed df).filter (fun p => rowDiffers p.1 p.2)

/-- The baseline of the spec's reconciler scenario: rows with ids 1 and 2. -/
def base0 : List Row :=
  [⟨PdCell.intV 1, "2024-01-01", "a", 2⟩, ⟨PdCell.intV 2, "2024-01-02", "b", 3⟩]

/-- The candidate of the spec's reconciler scenario: id 1 with changed hours,
plus a newly typed row whose id is missing. -/
def cand0 : List Row :=
  [⟨PdCell.intV 1, "2024-01-01", "a", 5⟩, ⟨PdCell.na, "2024-01-03", "c", 1⟩]

/-- The integer id of a row, when its id cell holds an integer. -/
def idNat (r : Row) : Option Nat :=
  match r.id with
  | .intV n => some n
  | _ => none

/-- The set of integer ids occurring in a table. -/
def natIds (t : List Row) : Finset Nat := (t.filterMap idNat).toFinset

/-- Does the cell hold an integer? -/
def isIntCell : PdCell → Bool
  | .intV _ => true
  | _ => false

/-- Does the cell hold an integer or a missing value? -/
def isIntOrNaCell : PdCell → Bool
  | .intV _ => true
  | .na => true
  | _ => false

/-- A baseline table is well formed when every id cell holds an integer
(rows loaded from storage always carry their primary key). -/
def wfBaseline (t : List Row) : Prop := ∀ r ∈ t, isIntCell r.id = true

/-- A candidate table is well formed when every id cell holds an integer
(an existing row) or is missing (a newly typed row). -/
def wfCandidate (t : List Row) : Prop := ∀ r ∈ t, isIntOrNaCell r.id = true

instance instDecWfBaseline (t : List Row) : Decidable (wfBaseline t) :=
  inferInstanceAs (Decidable (∀ r ∈ t, isIntCell r.id = true))

instance instDecWfCandidate (t : List Row) : Decidable (wfCandidate t) :=
  inferInstanceAs (Decidable (∀ r ∈ t, isIntOrNaCell r.id = true))

/-- Modelled from the spec's words, for comparison with `updated_rows`: the
update set as §4.3 describes it — the inner join of candidate to baseline on
the original id cells, restricted to matched pairs where date, description
or hours differs field-by-field. -/
def specUpdatedPairs (ed df : List Row) : List (Row × Row) :=
  (ed.flatMap
    (fun rn => (df.filter (fun ro => decide (ro.id = rn.id))).map
      (fun ro => (rn, ro)))).filter (fun p => rowDiffers p.1 p.2)

/-- The updated pair produced by the reconciler scenario (id 1, hours 2→5). -/
def pairW0 : Row × Row :=
  (⟨PdCell.strV "1", "2024-01-01", "a", 5⟩, ⟨PdCell.strV "1", "2024-01-01", "a", 2⟩)

/-- A stored entry row as the sqlite table holds it: a non-null integer
primary key, the date text, the description and the hours. -/
structure SRow where
  id : Nat
  entry_date : String
  description : String
  hours : ℚ
deriving DecidableEq

/-- The process-wide quota constant `total_quota = 25.0` (app.py:10). -/
def total_quota : ℚ := 25

/-- `df["hours"].sum() if not df.empty else 0` (app.py:60). -/
def hours_used (es : List SRow) : ℚ :=
  if es.isEmpty then 0 else (es.map SRow.hours).sum

/-- `max(0, total_quota - hours_used)` (app.py:61), quota explicit. -/
def hours_remaining (q : ℚ) (es : List SRow) : ℚ := max 0 (q - hours_used es)

/-- `(hours_used / total_quota) * 100 if total_quota else 0` (app.py:62),
quota explicit; Python tests the quota's truthiness, that is `q ≠ 0`. -/
def percent_used (q : ℚ) (es : List SRow) : ℚ :=
  if q ≠ 0 then hours_used es / q * 100 else 0

/-- Entries summing to 30 hours, against the 25-hour quota. -/
def ex30 : List SRow := [⟨1, "2024-01-01", "a", 12⟩, ⟨2, "2024-01-02", "b", 18⟩]

/-- `DELETE FROM entries WHERE id = ?` (app.py:39-43): rows whose id equals
the parameter are removed, all other rows kept in order. -/
def delete_entry (t : List SRow) (i : Nat) : List SRow :=
  t.filter (fun r => decide (r.id ≠ i))

/-- `UPDATE entries SET entry_date = ?, description = ?, hours = ? WHERE
id = ?` (app.py:45-52): each row whose id matches has its three data fields
overwritten; the id itself and every other row are untouched. -/
def update_entry (t : List SRow) (i : Nat) (d desc : String) (h : ℚ) : List SRow :=
  t.map (fun r =>
    if r.id = i then { r with entry_date := d, description := desc, hours := h } else r)

/-- The stored table used to evaluate the storage claims. -/
def st0 : List SRow := [⟨1, "2024-01-01", "a", 2⟩, ⟨2, "2024-01-02", "b", 3⟩]

/-- The row with id 2 of the stored table. -/
def rowW0 : SRow := ⟨2, "2024-01-02", "b", 3⟩

/-- An entry as the weekly chart sees it after `pd.to_datetime`: the date as
a day index, with day 0 on a Monday, and the hours. -/
structure DEntry where
  day : Nat
  hours : ℚ
deriving DecidableEq

/-- The Monday starting the ISO week of a day:
`to_period("W").start_time` (app.py:93). -/
def weekStart (d : Nat) : Nat := d - d % 7

/-- The per-row week-start column `df["week"]` (app.py:93). -/
def weekCol (es : List DEntry) : List Nat := es.map (fun e => weekStart e.day)

/-- The range start `df["week"].min()` (app.py:96). -/
def minWeek (es : List DEntry) : Nat := (weekCol es).min?.getD 0

/-- The grouped sum `df.groupby("week")["hours"].sum()` at one week key
(app.py:94). -/
def groupedWeekHours (es : List DEntry) (w : Nat) : ℚ :=
  ((es.filter (fun e => decide (weekStart e.day = w))).map DEntry.hours).sum

/-- `pd.date_range(start, end, freq="W-MON")` (app.py:98): every Monday
between the two bounds inclusive, ascending. -/
def dateRangeWMon (s e : Nat) : List Nat :=
  let first := s + (7 - s % 7) % 7
  if first ≤ e then (List.range ((e - first) / 7 + 1)).map (fun i => first + 7 * i)
  else []

/-- The densified weekly series (app.py:92-102): for a non-empty entry
table, one `(week, hours)` pair per Monday of the range, with hours 0 where
the grouped data has no row (`merge(..., how="left").fillna(0)`). -/
def weekly_usage_full (es : List DEntry) (today : Nat) : List (Nat × ℚ) :=
  if es.isEmpty then []
  else (dateRangeWMon (minWeek es) today).map (fun w => (w, groupedWeekHours es w))

/-- The concrete weekly scenario: entries on days 3 and 17, current day 16. -/
def esW0 : List DEntry := [⟨3, 2⟩, ⟨17, 5⟩]

theorem valDigits_decDigitsGo : ∀ fuel n, n ≤ fuel → valDigits (decDigitsGo fuel n) = n := by
  intro fuel
  induction fuel with
  | zero => intro n hn; interval_cases n; rfl
  | succ f ih =>
    intro n hn
    match n with
    | 0 => rfl
    | m + 1 =>
      have hle : (m + 1) / 10 ≤ f := by omega
      simp only [decDigitsGo, valDigits, ih _ hle]
      omega

theorem valDigits_decDigits (n : Nat) : valDigits (decDigits n) = n :=
  valDigits_decDigitsGo n n (Nat.le_refl n)

theorem decDigitsGo_lt : ∀ fuel n d, d ∈ decDigitsGo fuel n → d < 10 := by
  intro fuel
  induction fuel with
  | zero => intro n d hd; simp [decDigitsGo] at hd
  | succ f ih =>
    intro n d hd
    match n with
    | 0 => simp [decDigitsGo] at hd
    | m + 1 =>
      simp only [decDigitsGo, List.mem_cons] at hd
      rcases hd with h | h
      · omega
      · exact ih _ _ h

theorem decDigits_lt (n d : Nat) (hd : d ∈ decDigits n) : d < 10 :=
  decDigitsGo_lt n n d hd

theorem digitChar_inj (d1 d2 : Nat) (h1 : d1 < 10) (h2 : d2 < 10)
    (h : digitChar d1 = digitChar d2) : d1 = d2 := by
  interval_cases d1 <;> interval_cases d2 <;> simp_all [digitChar]

theorem digitChar_ne_n (d : Nat) (h1 : d < 10) : digitChar d ≠ 'n' := by
  interval_cases d <;> decide

theorem map_digitChar_inj : ∀ l1 l2 : List Nat, (∀ d ∈ l1, d < 10) → (∀ d ∈ l2, d < 10) →
    l1.map digitChar = l2.map digitChar → l1 = l2 := by
  intro l1
  induction l1 with
  | nil => intro l2 _ _ h; cases l2 <;> simp_all
  | cons a l ih =>
    intro l2 ha hb h
    cases l2 with
    | nil => simp_all
    | cons b l2t =>
      simp only [List.map_cons, List.cons.injEq] at h
      have hab : a = b :=
        digitChar_inj a b (ha a (by simp)) (hb b (by simp)) h.1
      have : l = l2t := by
        apply ih l2t
        · intro d hd; exact ha d (by simp [hd])
        · intro d hd; exact hb d (by simp [hd])
        · exact h.2
      simp [hab, this]

theorem eq_zero_of_map_decDigits (n : Nat)
    (hmap : (decDigits n).map digitChar = ['0']) : n = 0 := by
  have hv := valDigits_decDigits n
  cases hds : decDigits n with
  | nil => rw [hds] at hv; simpa [valDigits] using hv.symm
  | cons d ds =>
    rw [hds] at hmap
    simp only [List.map_cons, List.cons.injEq] at hmap
    obtain ⟨hd0, hds0⟩ := hmap
    have hdsnil : ds = [] := by
      cases ds with
      | nil => rfl
      | cons x xs => simp at hds0
    have hd10 : d < 10 := decDigits_lt n d (by simp [hds])
    have hd : d = 0 := by interval_cases d <;> simp_all [digitChar]
    rw [hds, hd, hdsnil] at hv
    simpa [valDigits] using hv.symm

theorem pyStrNat_inj (m n : Nat) (h : pyStrNat m = pyStrNat n) : m = n := by
  unfold pyStrNat at h
  by_cases hm : m = 0 <;> by_cases hn : n = 0
  · omega
  · exfalso
    simp only [hm, if_pos rfl, if_neg hn] at h
    have hdata : ('0' :: []) = ((decDigits n).map digitChar).reverse :=
      congrArg String.data h
    have hmap : (decDigits n).map digitChar = ['0'] := by
      have := congrArg List.reverse hdata
      simpa using this.symm
    exact hn (eq_zero_of_map_decDigits n hmap)
  · exfalso
    simp only [hn, if_pos rfl, if_neg hm] at h
    have hdata : ((decDigits m).map digitChar).reverse = ('0' :: []) :=
      congrArg String.data h
    have hmap : (decDigits m).map digitChar = ['0'] := by
      have := congrArg List.reverse hdata
      simpa using this
    exact hm (eq_zero_of_map_decDigits m hmap)
  · simp only [if_neg hm, if_neg hn] at h
    have hdata : ((decDigits m).map digitChar).reverse
        = ((decDigits n).map digitChar).reverse :=
      congrArg String.data h
    have hmap : (decDigits m).map digitChar = (decDigits n).map digitChar := by
      have := congrArg List.reverse hdata
      simpa using this
    have : decDigits m = decDigits n :=
      map_digitChar_inj _ _ (fun d hd => decDigits_lt m d hd)
        (fun d hd => decDigits_lt n d hd) hmap
    have hv1 := valDigits_decDigits m
    have hv2 := valDigits_decDigits n
    rw [this, hv2] at hv1
    omega

theorem pyStrNat_ne_nan (n : Nat) : pyStrNat n ≠ "nan" := by
  unfold pyStrNat
  by_cases hn : n = 0
  · simp [hn]
  · simp only [if_neg hn]
    intro h
    have hdata : ((decDigits n).map digitChar).reverse = ('n' :: 'a' :: 'n' :: []) := by
      have := congrArg String.data h
      simpa using this
    have hmem : 'n' ∈ (decDigits n).map digitChar := by
      have : 'n' ∈ ((decDigits n).map digitChar).reverse := by rw [hdata]; simp
      simpa using this
    rcases List.mem_map.mp hmem with ⟨d, hd, hdc⟩
    exact digitChar_ne_n d (decDigits_lt n d hd) hdc

theorem astypeStr_intV_inj (m n : Nat)
    (h : astypeStr (PdCell.intV m) = astypeStr (PdCell.intV n)) : m = n := by
  simp only [astypeStr, pdStr, PdCell.strV.injEq] at h
  exact pyStrNat_inj m n h

theorem astypeStr_intV_ne_na (n : Nat) :
    astypeStr (PdCell.intV n) ≠ astypeStr PdCell.na := by
  simp only [astypeStr, pdStr, ne_eq, PdCell.strV.injEq]
  exact pyStrNat_ne_nan n

theorem isna_astypeStr (c : PdCell) : isna (astypeStr c) = false := rfl

theorem added_rows_eq_nil (ed : List Row) : added_rows ed = [] := by
  unfold added_rows astypeIdStr
  rw [List.filter_eq_nil_iff]
  intro r hr
  rcases List.mem_map.mp hr with ⟨s, _, hs⟩
  simp [← hs, strRow, isna_astypeStr]

theorem mem_idSet_astype {t : List Row} {x : PdCell} :
    x ∈ idSet (astypeIdStr t) ↔ ∃ r ∈ t, x = astypeStr r.id := by
  simp only [idSet, astypeIdStr, List.map_map, List.mem_toFinset, List.mem_map,
    Function.comp]
  constructor
  · rintro ⟨r, hr, hx⟩; exact ⟨r, hr, hx.symm⟩
  · rintro ⟨r, hr, hx⟩; exact ⟨r, hr, hx.symm⟩

theorem mem_natIds {t : List Row} {n : Nat} :
    n ∈ natIds t ↔ ∃ r ∈ t, r.id = PdCell.intV n := by
  simp only [natIds, List.mem_toFinset, List.mem_filterMap]
  constructor
  · rintro ⟨r, hr, hn⟩
    refine ⟨r, hr, ?_⟩
    unfold idNat at hn
    cases h : r.id with
    | intV m => rw [h] at hn; simp at hn; rw [hn]
    | na => rw [h] at hn; simp at hn
    | strV s => rw [h] at hn; simp at hn
  · rintro ⟨r, hr, hn⟩
    exact ⟨r, hr, by simp [idNat, hn]⟩

theorem mem_idSet_astype_baseline {t : List Row} (hwf : wfBaseline t) {x : PdCell} :
    x ∈ idSet (astypeIdStr t) ↔ ∃ n ∈ natIds t, x = PdCell.strV (pyStrNat n) := by
  rw [mem_idSet_astype]
  constructor
  · rintro ⟨r, hr, hx⟩
    have := hwf r hr
    cases h : r.id with
    | intV n =>
      exact ⟨n, mem_natIds.mpr ⟨r, hr, h⟩, by simp [hx, h, astypeStr, pdStr]⟩
    | na => simp [h, isIntCell] at this
    | strV s => simp [h, isIntCell] at this
  · rintro ⟨n, hn, hx⟩
    rcases mem_natIds.mp hn with ⟨r, hr, hid⟩
    exact ⟨r, hr, by simp [hx, hid, astypeStr, pdStr]⟩

theorem strV_mem_idSet_astype_candidate {t : List Row} (hwf : wfCandidate t) {n : Nat} :
    PdCell.strV (pyStrNat n) ∈ idSet (astypeIdStr t) ↔ n ∈ natIds t := by
  rw [mem_idSet_astype]
  constructor
  · rintro ⟨r, hr, hx⟩
    have := hwf r hr
    cases h : r.id with
    | intV m =>
      rw [h] at hx
      simp only [astypeStr, pdStr, PdCell.strV.injEq] at hx
      have : n = m := pyStrNat_inj n m hx
      exact mem_natIds.mpr ⟨r, hr, by rw [h, this]⟩
    | na =>
      rw [h] at hx
      simp only [astypeStr, pdStr, PdCell.strV.injEq] at hx
      exact absurd hx (pyStrNat_ne_nan n)
    | strV s => simp [h, isIntOrNaCell] at this
  · intro hn
    rcases mem_natIds.mp hn with ⟨r, hr, hid⟩
    exact ⟨r, hr, by simp [hid, astypeStr, pdStr]⟩

/-- C2: the reconciler's deletion set is exactly the set of ids present in
the baseline but absent from the candidate's id set, rendered as the string
cells the code compares after `astype(str)`. -/
theorem deleted_ids_eq_baseline_minus_candidate (df ed : List Row)
    (hdf : wfBaseline df) (hed : wfCandidate ed) :
    deleted_ids df ed
      = (natIds df \ natIds ed).image (fun n => PdCell.strV (pyStrNat n)) := by
  unfold deleted_ids
  ext x
  simp only [Finset.mem_sdiff, Finset.mem_image]
  constructor
  · rintro ⟨hin, hout⟩
    rcases (mem_idSet_astype_baseline hdf).mp hin with ⟨n, hn, hx⟩
    refine ⟨n, ⟨hn, ?_⟩, hx.symm⟩
    intro hcon
    exact hout (by rw [hx]; exact (strV_mem_idSet_astype_candidate hed).mpr hcon)
  · rintro ⟨n, ⟨hdfn, hedn⟩, hx⟩
    refine ⟨(mem_idSet_astype_baseline hdf).mpr ⟨n, hdfn, hx.symm⟩, ?_⟩
    intro hcon
    rw [← hx] at hcon
    exact hedn ((strV_mem_idSet_astype_candidate hed).mp hcon)

/-- C2 witness: the correspondence evaluated on the concrete scenario tables. -/
theorem deleted_ids_eq_baseline_minus_candidate_witness :
    wfBaseline base0 ∧ wfCandidate cand0
      ∧ deleted_ids base0 cand0
          = (natIds base0 \ natIds cand0).image (fun n => PdCell.strV (pyStrNat n)) :=
  ⟨by decide, by decide,
    deleted_ids_eq_baseline_minus_candidate base0 cand0 (by decide) (by decide)⟩

/-- C1: a candidate row with a missing id is never classified as an
insertion: because the id column is cast to `str` before `isna` runs, the
insertion set is empty for every candidate table. On the spec's scenario
(baseline ids 1,2; candidate = id 1 with changed hours plus a null-id row)
the code yields one update (id 1) and one deletion (id 2) but zero
insertions, contradicting the spec's "one insertion". -/
theorem null_id_rows_never_inserted :
    (∀ ed : List Row, added_rows ed = [])
    ∧ deleted_ids base0 cand0 = {PdCell.strV (pyStrNat 2)}
    ∧ (updated_rows cand0 base0).map (fun p => p.1.id) = [PdCell.strV (pyStrNat 1)]
    ∧ added_rows cand0 = [] := by
  refine ⟨added_rows_eq_nil, ?_, ?_, ?_⟩ <;> decide

theorem isIntOrNaCell_of_isIntCell {c : PdCell} (h : isIntCell c = true) :
    isIntOrNaCell c = true := by
  cases c <;> simp_all [isIntCell, isIntOrNaCell]

theorem astypeStr_eq_iff (cb cc : PdCell) (hb : isIntCell cb = true)
    (hc : isIntOrNaCell cc = true) : astypeStr cb = astypeStr cc ↔ cb = cc := by
  cases cb with
  | intV m =>
    cases cc with
    | intV n =>
      constructor
      · intro h; rw [astypeStr_intV_inj m n h]
      · intro h; rw [h]
    | na =>
      constructor
      · intro h; exact absurd h (astypeStr_intV_ne_na m)
      · intro h; cases h
    | strV s => simp [isIntOrNaCell] at hc
  | na => simp [isIntCell] at hb
  | strV s => simp [isIntCell] at hb

theorem rowDiffers_self (r : Row) : rowDiffers r r = false := by
  simp [rowDiffers]

theorem flatMap_congr_mem {α β : Type} (l : List α) (f g : α → List β)
    (h : ∀ a ∈ l, f a = g a) : l.flatMap f = l.flatMap g := by
  induction l with
  | nil => rfl
  | cons a as ih =>
    simp only [List.flatMap_cons]
    rw [h a (by simp), ih (fun b hb => h b (by simp [hb]))]

theorem filter_astype_join (df : List Row) (hdf : wfBaseline df) (c : Row)
    (hc : isIntOrNaCell c.id = true) :
    (astypeIdStr df).filter (fun ro => decide (ro.id = (strRow c).id))
      = (df.filter (fun ro => decide (ro.id = c.id))).map strRow := by
  unfold astypeIdStr
  rw [List.filter_map]
  congr 1
  apply List.filter_congr
  intro b hb
  have hbw := hdf b hb
  have hiff : astypeStr b.id = astypeStr c.id ↔ b.id = c.id :=
    astypeStr_eq_iff b.id c.id hbw hc
  show decide ((strRow b).id = (strRow c).id) = decide (b.id = c.id)
  have hd : ((strRow b).id = (strRow c).id) = (b.id = c.id) := by
    have h1 : (strRow b).id = astypeStr b.id := rfl
    have h2 : (strRow c).id = astypeStr c.id := rfl
    rw [h1, h2]
    exact propext hiff
  simp only [hd]

theorem merged_eq_spec_join (df ed : List Row) (hdf : wfBaseline df)
    (hed : wfCandidate ed) :
    merged ed df
      = (ed.flatMap
          (fun rn => (df.filter (fun ro => decide (ro.id = rn.id))).map
            (fun ro => (rn, ro)))).map (fun p => (strRow p.1, strRow p.2)) := by
  unfold merged astypeIdStr
  rw [List.flatMap_map, List.map_flatMap]
  apply flatMap_congr_mem
  intro c hc
  have hz := filter_astype_join df hdf c (hed c hc)
  unfold astypeIdStr at hz
  rw [hz, List.map_map, List.map_map]
  rfl

/-- C3: the reconciler's update set is the inner join of candidate to
baseline on id restricted to field-differing pairs — it equals the spec's
join (over the original rows) with both components cast through the id
string conversion the code performs. -/
theorem updated_rows_eq_spec_join (df ed : List Row) (hdf : wfBaseline df)
    (hed : wfCandidate ed) :
    updated_rows ed df
      = (specUpdatedPairs ed df).map (fun p => (strRow p.1, strRow p.2)) := by
  unfold updated_rows specUpdatedPairs
  rw [merged_eq_spec_join df ed hdf hed, List.filter_map]
  congr 1

/-- C3 witness: the join correspondence evaluated on the scenario tables. -/
theorem updated_rows_eq_spec_join_witness :
    wfBaseline base0 ∧ wfCandidate cand0
      ∧ updated_rows cand0 base0
          = (specUpdatedPairs cand0 base0).map (fun p => (strRow p.1, strRow p.2)) :=
  ⟨by decide, by decide,
    updated_rows_eq_spec_join base0 cand0 (by decide) (by decide)⟩

/-- C7: diffing a table against itself produces no updates, no insertions
and no deletions, provided the baseline's ids are integers and unique. -/
theorem identical_candidate_empty_diff (df : List Row) (hdf : wfBaseline df)
    (hnd : (df.map Row.id).Nodup) :
    updated_rows df df = [] ∧ added_rows df = [] ∧ deleted_ids df df = ∅ := by
  refine ⟨?_, added_rows_eq_nil df, by simp [deleted_ids]⟩
  unfold updated_rows
  rw [List.filter_eq_nil_iff]
  intro p hp
  unfold merged astypeIdStr at hp
  rcases List.mem_flatMap.mp hp with ⟨rn, hrn, hin⟩
  rcases List.mem_map.mp hin with ⟨ro, hro, hpe⟩
  rcases List.mem_map.mp hrn with ⟨c, hc, hcs⟩
  have hfil := List.mem_filter.mp hro
  rcases List.mem_map.mp hfil.1 with ⟨b, hb, hbs⟩
  have hid : ro.id = rn.id := of_decide_eq_true hfil.2
  have hast : astypeStr b.id = astypeStr c.id := by
    have h1 : (strRow b).id = astypeStr b.id := rfl
    have h2 : (strRow c).id = astypeStr c.id := rfl
    rw [← h1, ← h2, hbs, hcs, hid]
  have hbc : b.id = c.id :=
    (astypeStr_eq_iff b.id c.id (hdf b hb)
      (isIntOrNaCell_of_isIntCell (hdf c hc))).mp hast
  have hbceq : b = c := List.inj_on_of_nodup_map hnd hb hc hbc
  have hpp : p = (strRow c, strRow c) := by
    rw [← hpe, ← hcs, ← hbs, hbceq]
  rw [hpp]
  simp [rowDiffers_self]

/-- C7 witness: the empty diff evaluated on the concrete baseline table. -/
theorem identical_candidate_empty_diff_witness :
    wfBaseline base0 ∧ (base0.map Row.id).Nodup
      ∧ (updated_rows base0 base0 = [] ∧ added_rows base0 = []
          ∧ deleted_ids base0 base0 = ∅) :=
  ⟨by decide, by decide,
    identical_candidate_empty_diff base0 (by decide) (by decide)⟩

/-- C9: the three reconciler outputs are disjoint — every updated pair
carries one id that also lies in the baseline id set and outside the
deletion set, every insertion row has a missing id, and the deletion set is
contained in the baseline id set. -/
theorem reconciler_outputs_disjoint (df ed : List Row) :
    (∀ p ∈ updated_rows ed df,
        p.1.id = p.2.id ∧ p.2.id ∈ idSet (astypeIdStr df)
          ∧ p.1.id ∉ deleted_ids df ed)
    ∧ (∀ r ∈ added_rows ed, isna r.id = true)
    ∧ (∀ x ∈ deleted_ids df ed, x ∈ idSet (astypeIdStr df)) := by
  refine ⟨?_, ?_, ?_⟩
  · intro p hp
    have hpm : p ∈ merged ed df := (List.mem_filter.mp hp).1
    unfold merged at hpm
    rcases List.mem_flatMap.mp hpm with ⟨rn, hrn, hin⟩
    rcases List.mem_map.mp hin with ⟨ro, hro, hpe⟩
    have hfil := List.mem_filter.mp hro
    have hid : ro.id = rn.id := of_decide_eq_true hfil.2
    have hp1 : p.1 = rn := by rw [← hpe]
    have hp2 : p.2 = ro := by rw [← hpe]
    refine ⟨by rw [hp1, hp2, hid], ?_, ?_⟩
    · rw [hp2]
      exact List.mem_toFinset.mpr (List.mem_map.mpr ⟨ro, hfil.1, rfl⟩)
    · rw [hp1]
      intro hcon
      have hmem : rn.id ∈ idSet (astypeIdStr ed) :=
        List.mem_toFinset.mpr (List.mem_map.mpr ⟨rn, hrn, rfl⟩)
      exact (Finset.mem_sdiff.mp hcon).2 hmem
  · intro r hr
    exact (List.mem_filter.mp hr).2
  · intro x hx
    exact (Finset.mem_sdiff.mp hx).1

/-- C9 witness: disjointness evaluated on the scenario tables at the one
updated pair. -/
theorem reconciler_outputs_disjoint_witness :
    pairW0 ∈ updated_rows cand0 base0
      ∧ (pairW0.1.id = pairW0.2.id ∧ pairW0.2.id ∈ idSet (astypeIdStr base0)
          ∧ pairW0.1.id ∉ deleted_ids base0 cand0) :=
  ⟨by decide, (reconciler_outputs_disjoint base0 cand0).1 pairW0 (by decide)⟩

theorem hours_used_eq_sum (es : List SRow) : hours_used es = (es.map SRow.hours).sum := by
  cases es <;> simp [hours_used]

/-- C5: remaining hours equal `max(0, quota - sum of hours)` and are never
negative; with quota 25 and entries summing to 30 they are exactly 0. -/
theorem hours_remaining_clamped :
    (∀ (q : ℚ) (es : List SRow),
        hours_remaining q es = max 0 (q - (es.map SRow.hours).sum)
          ∧ 0 ≤ hours_remaining q es)
    ∧ hours_used ex30 = 30 ∧ hours_remaining total_quota ex30 = 0 := by
  refine ⟨fun q es => ⟨by rw [hours_remaining, hours_used_eq_sum], le_max_left 0 _⟩, ?_, ?_⟩
  · norm_num [hours_used, ex30]
  · norm_num [hours_remaining, hours_used, ex30, total_quota]

/-- C6: percent used is `hours_used / quota * 100` for a nonzero quota, 0
for a zero quota, and is not clamped: quota 25 with 30 hours gives 120. -/
theorem percent_used_formula :
    (∀ (q : ℚ) (es : List SRow), q ≠ 0 → percent_used q es = hours_used es / q * 100)
    ∧ (∀ es : List SRow, percent_used 0 es = 0)
    ∧ percent_used total_quota ex30 = 120 := by
  refine ⟨fun q es hq => by simp [percent_used, hq], fun es => by simp [percent_used], ?_⟩
  norm_num [percent_used, hours_used, ex30, total_quota]

/-- C6 witness: the nonzero-quota formula discharged at quota 25. -/
theorem percent_used_formula_witness :
    total_quota ≠ 0
      ∧ percent_used total_quota ex30 = hours_used ex30 / total_quota * 100 :=
  ⟨by norm_num [total_quota],
    percent_used_formula.1 total_quota ex30 (by norm_num [total_quota])⟩

/-- C8: updating or deleting an id that is absent from the table completes
as a silent no-op: the table is returned unchanged. -/
theorem missing_id_noop (t : List SRow) (i : Nat) (d desc : String) (h : ℚ)
    (hni : ∀ r ∈ t, r.id ≠ i) :
    update_entry t i d desc h = t ∧ delete_entry t i = t := by
  constructor
  · unfold update_entry
    have hmap : ∀ r ∈ t,
        (if r.id = i then { r with entry_date := d, description := desc, hours := h } else r)
          = r := by
      intro r hr
      simp [hni r hr]
    calc t.map _ = t.map id := List.map_congr_left hmap
    _ = t := List.map_id t
  · unfold delete_entry
    rw [List.filter_eq_self]
    intro r hr
    simpa using hni r hr

/-- C8 witness: id 5 is absent from the table and both operations return it
unchanged. -/
theorem missing_id_noop_witness :
    (∀ r ∈ st0, r.id ≠ 5)
      ∧ (update_entry st0 5 "x" "y" 1 = st0 ∧ delete_entry st0 5 = st0) :=
  ⟨by decide, missing_id_noop st0 5 "x" "y" 1 (by decide)⟩

/-- C10: update rewrites exactly the matching rows (keeping their ids) and
leaves every other row unchanged in place; delete removes exactly the
matching rows, keeping the rest as a sublist in order. -/
theorem update_delete_frame (t : List SRow) (i : Nat) (d desc : String) (h : ℚ) :
    List.Forall₂
      (fun r rn => rn.id = r.id ∧ (r.id ≠ i → rn = r)
        ∧ (r.id = i → rn = { r with entry_date := d, description := desc, hours := h }))
      t (update_entry t i d desc h)
    ∧ (∀ r, r ∈ delete_entry t i ↔ r ∈ t ∧ r.id ≠ i)
    ∧ (delete_entry t i).Sublist t := by
  refine ⟨?_, ?_, List.filter_sublist t⟩
  · unfold update_entry
    induction t with
    | nil => exact List.Forall₂.nil
    | cons a as ih =>
      simp only [List.map_cons]
      refine List.Forall₂.cons ?_ ih
      by_cases hai : a.id = i
      · simp [hai]
      · simp [hai]
  · intro r
    unfold delete_entry
    rw [List.mem_filter]
    simp

/-- C10 witness: the delete frame condition evaluated at a concrete row. -/
theorem update_delete_frame_witness :
    rowW0 ∈ delete_entry st0 1 ↔ rowW0 ∈ st0 ∧ rowW0.id ≠ 1 :=
  (update_delete_frame st0 1 "x" "y" 0).2.1 rowW0

theorem weekStart_mod (d : Nat) : weekStart d % 7 = 0 := by
  unfold weekStart; omega

theorem weekStart_le (d : Nat) : weekStart d ≤ d := by
  unfold weekStart; omega

theorem minWeek_spec (es : List DEntry) (hne : es ≠ []) :
    (∃ e ∈ es, weekStart e.day = minWeek es)
      ∧ ∀ e ∈ es, minWeek es ≤ weekStart e.day := by
  have hcol : weekCol es ≠ [] := by
    unfold weekCol
    simpa using hne
  obtain ⟨a, ha⟩ : ∃ a, (weekCol es).min? = some a := by
    cases h : (weekCol es).min? with
    | none => exact absurd (List.min?_eq_none_iff.mp h) hcol
    | some a => exact ⟨a, rfl⟩
  have hspec := List.min?_eq_some_iff'.mp ha
  have hmw : minWeek es = a := by unfold minWeek; rw [ha]; rfl
  constructor
  · rcases List.mem_map.mp (by exact hspec.1 : a ∈ weekCol es) with ⟨e, he, hea⟩
    exact ⟨e, he, by rw [hea, hmw]⟩
  · intro e he
    rw [hmw]
    exact hspec.2 _ (List.mem_map.mpr ⟨e, he, rfl⟩)

theorem minWeek_mod (es : List DEntry) (hne : es ≠ []) : minWeek es % 7 = 0 := by
  rcases (minWeek_spec es hne).1 with ⟨e, _, he⟩
  rw [← he]
  exact weekStart_mod e.day

theorem dateRangeWMon_from_monday (s e : Nat) (hs : s % 7 = 0) (hse : s ≤ weekStart e) :
    dateRangeWMon s e
      = (List.range ((weekStart e - s) / 7 + 1)).map (fun i => s + 7 * i) := by
  unfold dateRangeWMon
  have h1 : s + (7 - s % 7) % 7 = s := by omega
  rw [h1]
  have h2 : s ≤ e := le_trans hse (weekStart_le e)
  rw [if_pos h2]
  have h3 : (e - s) / 7 = (weekStart e - s) / 7 := by
    unfold weekStart
    omega
  rw [h3]

/-- C4: for a non-empty entry table the weekly series is indexed by exactly
the arithmetic progression of Mondays from the earliest entry's week start
(the least week start of the data) through the current week's Monday, with
each bucket's hours equal to the grouped sum and 0 when its week has no
entry. -/
theorem weekly_buckets_contiguous (es : List DEntry) (today : Nat)
    (hne : es ≠ []) (hle : minWeek es ≤ weekStart today) :
    (weekly_usage_full es today).map Prod.fst
        = (List.range ((weekStart today - minWeek es) / 7 + 1)).map
            (fun i => minWeek es + 7 * i)
    ∧ (∃ e ∈ es, weekStart e.day = minWeek es)
    ∧ (∀ e ∈ es, minWeek es ≤ weekStart e.day)
    ∧ weekStart today ∈ (weekly_usage_full es today).map Prod.fst
    ∧ (∀ p ∈ weekly_usage_full es today, p.2 = groupedWeekHours es p.1)
    ∧ (∀ p ∈ weekly_usage_full es today,
        (∀ e ∈ es, weekStart e.day ≠ p.1) → p.2 = 0) := by
  have hnemp : es.isEmpty = false := by
    cases es with
    | nil => exact absurd rfl hne
    | cons a as => rfl
  have hfst : (weekly_usage_full es today).map Prod.fst
      = dateRangeWMon (minWeek es) today := by
    unfold weekly_usage_full
    rw [if_neg (by simp [hnemp])]
    rw [List.map_map]
    have hcomp : (Prod.fst ∘ fun w => (w, groupedWeekHours es w)) = id :=
      funext (fun w => rfl)
    rw [hcomp, List.map_id]
  have hrange := dateRangeWMon_from_monday (minWeek es) today (minWeek_mod es hne) hle
  refine ⟨by rw [hfst, hrange], (minWeek_spec es hne).1, (minWeek_spec es hne).2, ?_, ?_, ?_⟩
  · rw [hfst, hrange]
    apply List.mem_map.mpr
    refine ⟨(weekStart today - minWeek es) / 7, List.mem_range.mpr (by omega), ?_⟩
    have hd1 : (7 : Nat) ∣ weekStart today := Nat.dvd_of_mod_eq_zero (weekStart_mod today)
    have hd2 : (7 : Nat) ∣ minWeek es := Nat.dvd_of_mod_eq_zero (minWeek_mod es hne)
    have h7 : (7 : Nat) ∣ (weekStart today - minWeek es) := Nat.dvd_sub' hd1 hd2
    omega
  · intro p hp
    unfold weekly_usage_full at hp
    rw [if_neg (by simp [hnemp])] at hp
    rcases List.mem_map.mp hp with ⟨w, _, hw⟩
    rw [← hw]
  · intro p hp hnone
    unfold weekly_usage_full at hp
    rw [if_neg (by simp [hnemp])] at hp
    rcases List.mem_map.mp hp with ⟨w, _, hw⟩
    have hp1 : p.1 = w := by rw [← hw]
    have hp2 : p.2 = groupedWeekHours es w := by rw [← hw]
    rw [hp2]
    unfold groupedWeekHours
    have hfil : es.filter (fun e => decide (weekStart e.day = w)) = [] := by
      rw [List.filter_eq_nil_iff]
      intro e he
      have hn := hnone e he
      rw [hp1] at hn
      simpa using hn
    rw [hfil]
    simp

/-- C4 witness: the bucket property discharged on the concrete scenario. -/
theorem weekly_buckets_contiguous_witness :
    esW0 ≠ [] ∧ minWeek esW0 ≤ weekStart 16
      ∧ ((weekly_usage_full esW0 16).map Prod.fst
            = (List.range ((weekStart 16 - minWeek esW0) / 7 + 1)).map
                (fun i => minWeek esW0 + 7 * i)
          ∧ (∃ e ∈ esW0, weekStart e.day = minWeek esW0)
          ∧ (∀ e ∈ esW0, minWeek esW0 ≤ weekStart e.day)
          ∧ weekStart 16 ∈ (weekly_usage_full esW0 16).map Prod.fst
          ∧ (∀ p ∈ weekly_usage_full esW0 16, p.2 = groupedWeekHours esW0 p.1)
          ∧ (∀ p ∈ weekly_usage_full esW0 16,
              (∀ e ∈ esW0, weekStart e.day ≠ p.1) → p.2 = 0)) :=
  ⟨by decide, by decide, weekly_buckets_contiguous esW0 16 (by decide) (by decide)⟩

end HoursDashboard
